import Mathlib

/-!
Verification of the candidate-retrieval and ranking pipeline of the Bis_bot
repository.  Text is modelled as `List Char`; the Python code of
`src/text_processing.py`, `src/embeddings.py`, `src/llm_service.py`,
`src/bot.py` and `src/vector_db.py` is embedded shallowly below, and the
spec's testable properties are stated and settled as theorems at the end
of the file.

Modelling conventions:
* Python `str` becomes `List Char`; `len`, slicing, `strip`, `split` are
  translated element-wise.
* The regex character class `\w` (Unicode word characters) is modelled as
  ASCII alphanumerics, underscore, and the Cyrillic block U+0400..U+04FF —
  the only letters the program's data ever contains.
* The regex class `\s` is modelled as the ASCII whitespace characters.
* Floating point vectors become `List ℝ`; machine floats are idealised as
  real numbers.
* Fallible external calls (SQLite, Qdrant, DeepSeek) are modelled by
  passing the call's outcome as an explicit argument of type
  `Except Unit α` (`.error ()` = the Python call raised).
-/

namespace BisBot

/-! ## Character classes (text_processing.py regexes) -/

/-- Python `\s` (ASCII whitespace). -/
def isSpaceCh (c : Char) : Bool :=
  c = ' ' || c = '\t' || c = '\n' || c = '\x0d' || c = '\x0b' || c = '\x0c'

/-- Cyrillic block U+0400..U+04FF. -/
def isCyrCh (c : Char) : Bool :=
  0x400 ≤ c.toNat && c.toNat ≤ 0x4FF

/-- Python `\w`: word characters (see modelling conventions above). -/
def isWordCh (c : Char) : Bool :=
  c.isAlpha || c.isDigit || c = '_' || isCyrCh c

/-- Characters kept by `clean_text`'s second regex:
`[^\w\s\.,!?;:\-()«»""]` is removed, i.e. word characters, whitespace and
the listed punctuation are kept. -/
def isAllowedCh (c : Char) : Bool :=
  isWordCh c || isSpaceCh c ||
    c = '.' || c = ',' || c = '!' || c = '?' || c = ';' || c = ':' ||
    c = '-' || c = '(' || c = ')' || c = '«' || c = '»' || c = '"'

/-- Sentence terminators `[.!?]` used by `split_into_sentences`. -/
def isTermCh (c : Char) : Bool :=
  c = '.' || c = '!' || c = '?'

/-- Lower-case letters of the keyword class `[а-яё]`. -/
def isKwCh (c : Char) : Bool :=
  ('а' ≤ c && c ≤ 'я') || c = 'ё'

/-- Python `str.lower`, restricted to the characters the program meets:
ASCII letters and Cyrillic.  `А`..`Я` (U+0410..U+042F) map to
`а`..`я` (U+0430..U+044F), `Ё` maps to `ё`. -/
def toLowerRu (c : Char) : Char :=
  if 'А' ≤ c && c ≤ 'Я' then Char.ofNat (c.toNat + 0x20)
  else if c = 'Ё' then 'ё'
  else c.toLower

/-! ## `clean_text` -/

/-- Python `str.strip()`: drop leading and trailing whitespace. -/
def trimCh (l : List Char) : List Char :=
  ((l.dropWhile isSpaceCh).reverse.dropWhile isSpaceCh).reverse

/-- `re.sub(r'\s+', ' ', ·)`: replace each maximal run of whitespace by a
single space.  The Boolean flag records whether the previous character was
whitespace (i.e. we are inside a run that has already emitted its space). -/
def collapseWs : Bool → List Char → List Char
  | _, [] => []
  | inRun, c :: rest =>
    if isSpaceCh c then
      if inRun then collapseWs true rest
      else ' ' :: collapseWs true rest
    else c :: collapseWs false rest

/-- `TextProcessor.clean_text` (text_processing.py lines 21-32):
empty input yields empty output; otherwise strip, collapse whitespace,
then delete characters outside the permitted class. -/
def cleanText (l : List Char) : List Char :=
  if l = [] then []
  else (collapseWs false (trimCh l)).filter isAllowedCh

/-! ## `split_into_sentences` -/

/-- Scanner state for `re.split(r'[.!?]+\s*', ·)`:
`text` = inside an ordinary piece, `terms` = inside the `[.!?]+` part of a
separator, `spaces` = inside the `\s*` tail of a separator. -/
inductive SplitState where
  | text
  | terms
  | spaces
deriving DecidableEq, Repr

/-- One pass of `re.split(r'[.!?]+\s*', ·)`, producing the raw pieces
(possibly empty or containing whitespace) between separator matches.
`cur` holds the current piece reversed. -/
def splitTermAux : SplitState → List Char → List Char → List (List Char)
  | _, cur, [] => [cur.reverse]
  | .text, cur, c :: rest =>
    if isTermCh c then cur.reverse :: splitTermAux .terms [] rest
    else splitTermAux .text (c :: cur) rest
  | .terms, cur, c :: rest =>
    if isTermCh c then splitTermAux .terms cur rest
    else if isSpaceCh c then splitTermAux .spaces cur rest
    else splitTermAux .text [c] rest
  | .spaces, cur, c :: rest =>
    if isTermCh c then cur.reverse :: splitTermAux .terms [] rest
    else if isSpaceCh c then splitTermAux .spaces cur rest
    else splitTermAux .text [c] rest

/-- `TextProcessor.split_into_sentences` (lines 34-38):
`re.split` then `[s.strip() for s in sentences if s.strip()]`. -/
def splitIntoSentences (l : List Char) : List (List Char) :=
  ((splitTermAux .text [] l).map trimCh).filter (· ≠ [])

/-! ## `chunk_text` -/

/-- `TEXT_SPLIT_PARAMS["chunk_size"]` (config.py). -/
def chunkSize : Nat := 1200

/-- `TEXT_SPLIT_PARAMS["chunk_overlap"]` (config.py). -/
def chunkOverlap : Nat := 150

/-- Python `str.split()` (no argument): maximal runs of non-whitespace.
`cur` holds the current word reversed. -/
def splitWordsAux : List Char → List Char → List (List Char)
  | cur, [] => if cur = [] then [] else [cur.reverse]
  | cur, c :: rest =>
    if isSpaceCh c then
      if cur = [] then splitWordsAux [] rest
      else cur.reverse :: splitWordsAux [] rest
    else splitWordsAux (c :: cur) rest

def splitWords (l : List Char) : List (List Char) :=
  splitWordsAux [] l

/-- Inner loop of `chunk_text` for a single over-long sentence
(lines 72-84): greedy word packing, state = (chunks so far, temp_chunk). -/
def wordStep (acc : List (List Char) × List Char) (w : List Char) :
    List (List Char) × List Char :=
  let (chunks, temp) := acc
  if chunkSize < temp.length + w.length + 1 then
    (if temp ≠ [] then chunks ++ [trimCh temp] else chunks, w)
  else
    (chunks, if temp = [] then w else temp ++ [' '] ++ w)

/-- Main loop body of `chunk_text` (lines 58-88),
state = (chunks so far, current_chunk). -/
def sentStep (acc : List (List Char) × List Char) (s : List Char) :
    List (List Char) × List Char :=
  let (chunks, current) := acc
  if chunkSize < current.length + s.length then
    if current ≠ [] then
      let ov :=
        if chunkOverlap < current.length then
          current.drop (current.length - chunkOverlap)
        else current
      (chunks ++ [trimCh current], ov ++ [' '] ++ s)
    else
      if chunkSize < s.length then
        (splitWords s).foldl wordStep (chunks, [])
      else
        (chunks, s)
  else
    (chunks, if current = [] then s else current ++ [' '] ++ s)

/-- `TextProcessor.chunk_text` (lines 40-94) with the default
`chunk_size`/`chunk_overlap` of the global `text_processor`. -/
def chunkText (text : List Char) : List (List Char) :=
  if text = [] then []
  else if text.length ≤ chunkSize then [text]
  else
    let st := (splitIntoSentences text).foldl sentStep ([], [])
    if st.2 ≠ [] then st.1 ++ [trimCh st.2] else st.1

/-! ## `extract_keywords` -/

/-- The fixed stop-word set of `extract_keywords` (lines 105-110). -/
def stopWords : List (List Char) :=
  (["это", "что", "как", "для", "или", "при", "все", "еще", "уже",
    "где", "кто", "чем", "том", "тем", "так", "был", "была", "было",
    "есть", "быть", "мне", "нас", "вас", "них", "его", "её", "их",
    "могу", "можем", "можете", "могут", "хочу", "хотим", "хотите",
    "хотят"]).map String.toList

/-- Maximal runs of word characters (`\w+`), used to realise the word
boundaries `\b` of the keyword regex.  `cur` holds the run reversed. -/
def wordRunsAux : List Char → List Char → List (List Char)
  | cur, [] => if cur = [] then [] else [cur.reverse]
  | cur, c :: rest =>
    if isWordCh c then wordRunsAux (c :: cur) rest
    else if cur = [] then wordRunsAux [] rest
    else cur.reverse :: wordRunsAux [] rest

def wordRuns (l : List Char) : List (List Char) :=
  wordRunsAux [] l

/-- `re.findall(r'\b[а-яё]{3,}\b', text.lower())`: the maximal word-
character runs of the lowered text that consist entirely of `[а-яё]` and
have length at least 3.  (A shorter `[а-яё]` run embedded in a longer
word-character run has no `\b` boundary around it and is not matched.) -/
def findKwWords (l : List Char) : List (List Char) :=
  (wordRuns (l.map toLowerRu)).filter
    (fun w => w.all isKwCh && decide (3 ≤ w.length))

/-- The `keywords` list of `extract_keywords` (line 112): words that are
not stop words and have length strictly greater than 3. -/
def eligibleKeywords (l : List Char) : List (List Char) :=
  (findKwWords l).filter (fun w => !stopWords.contains w && decide (3 < w.length))

/-- Position of the first occurrence of `w` in `l` (the "first seen"
position used to phrase `most_common`'s stable tie-breaking). -/
def firstIdx : List (List Char) → List Char → Nat
  | [], _ => 0
  | x :: rest, w => if x = w then 0 else firstIdx rest w + 1

/-- The distinct elements of a list in first-seen order (the iteration
order of a Python `Counter`'s keys): the head followed by the distinct
elements of the tail with the head's later occurrences removed. -/
def distinctInOrder : List (List Char) → List (List Char)
  | [] => []
  | w :: rest => w :: (distinctInOrder rest).filter (· ≠ w)

/-- Stable insertion (descending by count): a later element goes after
every earlier element of greater-or-equal count.  This reproduces the
output of Python's stable sort used by `Counter.most_common`. -/
def insertByCount (x : List Char × Nat) :
    List (List Char × Nat) → List (List Char × Nat)
  | [] => [x]
  | y :: ys => if y.2 < x.2 then x :: y :: ys else y :: insertByCount x ys

/-- `Counter(keywords).most_common(10)` keys: count occurrences, sort by
count descending (stable, ties keep first-seen order), take 10. -/
def mostCommon10 (kws : List (List Char)) : List (List Char) :=
  let pairs := (distinctInOrder kws).map (fun w => (w, kws.count w))
  ((pairs.foldl (fun acc x => insertByCount x acc) []).map Prod.fst).take 10

/-- `TextProcessor.extract_keywords` (lines 96-117). -/
def extractKeywords (l : List Char) : List (List Char) :=
  if l = [] then []
  else mostCommon10 (eligibleKeywords l)

/-! ## `prepare_profile_text` -/

/-- Result of `TextProcessor.prepare_profile_text` (lines 119-157). -/
structure PreparedProfile where
  structuredText : List Char
  chunks : List (List Char)
  keywords : List (List Char)
  totalLength : Nat
  cleanAnswer1 : List Char
  cleanAnswer2 : List Char
  cleanAnswer3 : List Char
deriving DecidableEq, Repr

/-- The label prefixes of the structured profile text (line 132-134). -/
def labelField : List Char := "Сфера деятельности: ".toList

def labelSeeking : List Char := "\nЧто ищет в сообществе: ".toList

def labelOffering : List Char := "\nЧем может помочь другим: ".toList

/-- `TextProcessor.prepare_profile_text`: clean the three answers, build
the labelled structured text, chunk it only when its length exceeds 400,
and extract keywords from the space-joined cleaned answers. -/
def prepareProfileText (answer1 answer2 answer3 : List Char) : PreparedProfile :=
  let c1 := cleanText answer1
  let c2 := cleanText answer2
  let c3 := cleanText answer3
  let structured := labelField ++ c1 ++ labelSeeking ++ c2 ++ labelOffering ++ c3
  let chunks := if 400 < structured.length then chunkText structured else [structured]
  let allText := c1 ++ [' '] ++ c2 ++ [' '] ++ c3
  { structuredText := structured
    chunks := chunks
    keywords := extractKeywords allText
    totalLength := structured.length
    cleanAnswer1 := c1
    cleanAnswer2 := c2
    cleanAnswer3 := c3 }

/-! ## Embedding vectors (`embeddings.py`)

Vectors are `List ℝ`; `np.linalg.norm` is the L2 norm, `np.mean(·, axis=0)`
the component-wise arithmetic mean (all chunk embeddings returned by the
model have the same fixed dimension, so `zipWith` truncation never fires). -/

/-- Sum of squares of the components. -/
noncomputable def sumSq (v : List ℝ) : ℝ :=
  (v.map (fun x => x ^ 2)).sum

/-- `np.linalg.norm v` (L2). -/
noncomputable def normL2 (v : List ℝ) : ℝ :=
  Real.sqrt (sumSq v)

/-- `v / np.linalg.norm(v)` (component-wise). -/
noncomputable def renormalize (v : List ℝ) : List ℝ :=
  v.map (fun x => x / normL2 v)

/-- Component-wise vector addition. -/
noncomputable def addVec (v w : List ℝ) : List ℝ :=
  List.zipWith (· + ·) v w

/-- `np.mean(l, axis=0)`: component-wise sum divided by the number of
vectors. -/
noncomputable def vecMean (l : List (List ℝ)) : List ℝ :=
  match l with
  | [] => []
  | v :: vs => (vs.foldl addVec v).map (fun x => x / (l.length : ℝ))

/-- `EmbeddingService.create_profile_embedding` (embeddings.py lines
25-60).  The sentence-transformer model is the injected capability
`encode : List Char → List ℝ` (called with `normalize_embeddings=True`,
so it is assumed to return unit vectors).  One chunk: the chunk's
embedding as returned.  Several chunks: the component-wise mean of the
per-chunk embeddings, re-normalized. -/
noncomputable def createProfileEmbedding (encode : List Char → List ℝ)
    (answer1 answer2 answer3 : List Char) : List ℝ :=
  let pd := prepareProfileText answer1 answer2 answer3
  if pd.chunks.length = 1 then encode pd.chunks.headI
  else
    let chunkEmbeddings := pd.chunks.map encode
    renormalize (vecMean chunkEmbeddings)

/-! ## Relevance ranker (`llm_service.py`)

`DeepSeekService.find_best_matches` is a network call followed by pure
post-processing.  The oracle interaction is modelled by its outcome:
either the API call raised (`apiError`), or it returned text that
`json.loads` rejects (`unparsable`), or it returned a parsed JSON object
whose `matches` entries are `RawMatch` records (each field `Option`al,
mirroring `dict.get` with a default). -/

/-- A profile row as handed to the ranker (SQLite columns plus the
`match_score`/`match_reason` keys the ranker may add; `none` = key
absent from the Python dict). -/
structure Profile where
  telegramId : Int
  username : Option String
  firstName : Option String
  answer1 : String
  answer2 : String
  answer3 : String
  matchScore : Option Int
  matchReason : Option String
deriving DecidableEq, Repr

/-- One entry of the parsed `matches` array.  A `none` field was absent
from the JSON object and `dict.get`'s default applies. -/
structure RawMatch where
  candidateIndex : Option Int
  matchScore : Option Int
  reason : Option String
deriving DecidableEq, Repr

inductive OracleOutcome where
  | apiError
  | unparsable
  | parsed (rawMatches : List RawMatch)
deriving DecidableEq, Repr

/-- Default reason string `'Подходящий кандидат'` (llm_service.py line 80). -/
def defaultReason : String := "Подходящий кандидат"

/-- `DeepSeekService.find_best_matches` (llm_service.py lines 18-94),
post-oracle part.  On an API error or a JSON parse failure the fallback
returns `candidate_profiles[:top_k]` unchanged.  On a parsed response,
each entry's 1-based `candidate_index` is converted to 0-based; an index
outside `[0, len)` is dropped silently; surviving entries are copies of
the candidate with `match_score` and `match_reason` set; finally the
list is truncated to `top_k`. -/
def findBestMatches (_userProfile : Profile) (candidates : List Profile)
    (topK : Nat) (outcome : OracleOutcome) : List Profile :=
  match outcome with
  | .apiError => candidates.take topK
  | .unparsable => candidates.take topK
  | .parsed rawMatches =>
    let selected := rawMatches.foldl (fun acc m =>
      let idx : Int := m.candidateIndex.getD 1 - 1
      if 0 ≤ idx ∧ idx < (candidates.length : Int) then
        match candidates[idx.toNat]? with
        | some p =>
          acc ++ [{ p with
            matchScore := some (m.matchScore.getD 0)
            matchReason := some (m.reason.getD defaultReason) }]
        | none => acc
      else acc) []
    selected.take topK

/-! ## Candidate retrieval and merge (`bot.py` `find_matches`)

Only the candidate-retrieval portion (bot.py lines 581-668) is modelled:
the surrounding Telegram I/O is presentation.  Each external call is
represented by its outcome (`Except Unit`); `.error ()` means the Python
call raised.  An `.error ()` overall result means control reached the
outer `except` handler at line 750 (the user receives the generic
"matching error" message and no candidate list is produced). -/

/-- One step of the dedup loop (bot.py lines 659-664): `seen_users` is
modelled as the list of telegram ids already appended. -/
def dedupStep (acc : List Profile × List Int) (p : Profile) :
    List Profile × List Int :=
  if p.telegramId ∈ acc.2 then acc
  else (acc.1 ++ [p], acc.2 ++ [p.telegramId])

/-- The full dedup of `candidate_profiles` then `vector_profiles`,
before the cap. -/
def dedupProfiles (l : List Profile) : List Profile :=
  (l.foldl dedupStep ([], [])).1

/-- The merge of bot.py lines 655-666: iterate the keyword list then the
vector list, keep the first occurrence of each telegram id, cap at 20. -/
def mergeCandidates (keywordProfiles vectorProfiles : List Profile) :
    List Profile :=
  (dedupProfiles (keywordProfiles ++ vectorProfiles)).take 20

/-- Candidate retrieval of `find_matches` (bot.py lines 581-668).

* `keywords`: the requester profile's stored keyword list.
* `kwRes`: outcome of `db.find_profiles_with_keywords` (only consulted
  when `keywords` is non-empty; the call sits inside the outer `try`
  only, so its exception propagates to the line-750 handler).
* `qdrantRes`: outcome of the whole Qdrant block (embedding fetch or
  lazy backfill plus `search_similar_profiles`), caught at line 644.
* `allActiveRes`: outcome of the SQLite fallback
  `db.get_all_active_profiles`, caught at line 651 (degrades to `[]`). -/
def retrieveCandidates (keywords : List String)
    (kwRes : Except Unit (List Profile))
    (qdrantRes : Except Unit (List Profile))
    (allActiveRes : Except Unit (List Profile)) :
    Except Unit (List Profile) :=
  let kwStep : Except Unit (List Profile) :=
    if keywords = [] then .ok [] else kwRes
  match kwStep with
  | .error () => .error ()
  | .ok keywordProfiles =>
    let vectorProfiles :=
      match qdrantRes with
      | .ok l => l
      | .error () =>
        match allActiveRes with
        | .ok l => l
        | .error () => []
    .ok (mergeCandidates keywordProfiles vectorProfiles)

/-! ## Vector similarity search (`vector_db.py`) -/

/-- The payload stored with each Qdrant point (vector_db.py lines 64-75).
`userId` is `Option`al: `hit.payload.get("user_id")` yields `None` when
the key is absent. -/
structure VPayload where
  userId : Option Int
  answer1 : Option String
  answer2 : Option String
  answer3 : Option String
deriving DecidableEq, Repr

/-- One hit returned by `client.search`. -/
structure SearchHit where
  payload : VPayload
  score : ℚ
deriving DecidableEq, Repr

/-- A profile dict built from a hit (payload plus `similarity_score`). -/
structure VProfile where
  payload : VPayload
  similarityScore : ℚ
deriving DecidableEq, Repr

/-- `VectorDatabase.search_similar_profiles` (vector_db.py lines 90-119).
`embedding = none` models the Python `None` argument; `searchRes` is the
outcome of `client.search` (requested with `limit + 1`); any exception
yields `[]`.  Hits whose payload `user_id` equals the requester are
filtered out, the rest keep their payload and score, truncated to
`limit`. -/
def searchSimilarProfiles (embedding : Option (List ℚ)) (userId : Int)
    (lim : Nat) (searchRes : Except Unit (List SearchHit)) : List VProfile :=
  match embedding with
  | none => []
  | some _ =>
    match searchRes with
    | .error () => []
    | .ok hits =>
      (((hits.filter (fun h => h.payload.userId ≠ some userId)).map
        (fun h => { payload := h.payload, similarityScore := h.score : VProfile })).take lim)

/-! ## Concrete inputs used by counterexamples and witnesses -/

/-- A requester profile (content immaterial). -/
def sampleUser : Profile :=
  ⟨0, none, none, "дизайн", "партнёр", "опыт", none, none⟩

/-- A candidate without `match_score`/`match_reason` keys. -/
def cand1 : Profile := ⟨1, none, none, "финансы", "стартап", "капитал", none, none⟩

def cand2 : Profile := ⟨2, none, none, "медицина", "команда", "знания", none, none⟩

def cand3 : Profile := ⟨3, none, none, "стройка", "заказы", "ресурсы", none, none⟩

/-- Two 600-character sentences: total length 1202 exceeds `chunk_size`,
but the two sentences are greedily packed into one `current_chunk` of
1201 characters (the `+ " " +` join is not counted by the size check),
which is emitted as a chunk longer than `chunk_size`. -/
def bigTwoSentences : List Char :=
  List.replicate 600 'a' ++ ". ".toList ++ List.replicate 600 'b'

/-- First profile answer of the multi-chunk embedding input: one
650-character sentence. -/
def bigA1 : List Char := List.replicate 650 'a' ++ ['.']

def bigA2 : List Char := List.replicate 650 'b' ++ ['.']

def bigA3 : List Char := ['c']

/-- An embedding model (injected capability) that returns a unit vector
for every input: `[1, 0]` for texts starting with `С` (the first chunk of
the structured profile text), `[-1, 0]` otherwise. -/
noncomputable def cxEncode : List Char → List ℝ :=
  fun s => if s.headI = 'С' then [1, 0] else [-1, 0]

/-- A constant unit-vector embedding model. -/
noncomputable def constEncode : List Char → List ℝ :=
  fun _ => [3 / 5, 4 / 5]

/-- Sample Qdrant search hits: the second one belongs to the requester
(user id 7) and must be filtered out. -/
def hitOther : SearchHit := ⟨⟨some 5, some "a", none, none⟩, 9 / 10⟩

def hitSelf : SearchHit := ⟨⟨some 7, some "b", none, none⟩, 8 / 10⟩

def hitNoId : SearchHit := ⟨⟨none, some "c", none, none⟩, 7 / 10⟩

/-! # Theorems -/

/-! ## C1 — ranker fallback -/

/-- The claim C1 as frozen is false on the code: the fallback does not
attach a default score or a generic reason.  With a one-candidate list
whose profile dict has no `match_score`/`match_reason` keys, an oracle
API error makes `find_best_matches` return that candidate dict unchanged:
no score and no reason are present on the returned entry. -/
theorem C1_fallback_no_default_score :
    findBestMatches sampleUser [cand1] 5 .apiError = [cand1] ∧
    cand1.matchScore = none ∧ cand1.matchReason = none := by
  refine ⟨rfl, rfl, rfl⟩

/-- C1 (amended): `find_best_matches` is total, never returns more than
`top_k` entries, and on an oracle API error or a response that fails JSON
parsing it returns the first `min(top_k, len(candidates))` candidates in
input order, unchanged (no score or reason fields are attached). -/
theorem C1_ranker_fallback (u : Profile) (cands : List Profile) (k : Nat)
    (o : OracleOutcome) :
    (findBestMatches u cands k o).length ≤ k ∧
    (o = .apiError ∨ o = .unparsable →
      findBestMatches u cands k o = cands.take k ∧
      (findBestMatches u cands k o).length = min k cands.length ∧
      ∀ p ∈ findBestMatches u cands k o, p ∈ cands) := by
  constructor
  · cases o with
    | apiError => simp [findBestMatches]
    | unparsable => simp [findBestMatches]
    | parsed ms => simp [findBestMatches]
  · rintro (rfl | rfl) <;>
      exact ⟨rfl, by simp [findBestMatches], fun p hp => List.mem_of_mem_take hp⟩

theorem C1_ranker_fallback_witness :
    findBestMatches sampleUser [cand1, cand2, cand3] 2 .apiError
      = [cand1, cand2] ∧
    (findBestMatches sampleUser [cand1, cand2, cand3] 2 .apiError).length ≤ 2 := by
  have h := C1_ranker_fallback sampleUser [cand1, cand2, cand3] 2 .apiError
  exact ⟨by simpa using (h.2 (Or.inl rfl)).1, h.1⟩

/-! ## C5 — parsed response with every index out of range -/

/-- The claim C5 as frozen is false on the code: when the oracle response
parses but every `candidate_index` is out of range, `find_best_matches`
returns the empty list — it does not fall back to the first `top_k`
candidates. -/
theorem C5_out_of_range_no_fallback :
    findBestMatches sampleUser [cand1, cand2, cand3] 3
        (.parsed [⟨some 5, some 9, some "x"⟩]) = [] ∧
    ([] : List Profile) ≠ [cand1, cand2, cand3].take 3 := by
  exact ⟨rfl, by simp⟩

/-- C5 (amended): entries whose `candidate_index` lies outside
`[1, len(candidates)]` are dropped silently; when every entry of a
parsable response is out of range the result is the empty list (the
deterministic fallback is not applied — it only covers API errors and
parse failures). -/
theorem C5_all_out_of_range_empty (u : Profile) (cands : List Profile)
    (k : Nat) (ms : List RawMatch)
    (h : ∀ m ∈ ms, m.candidateIndex.getD 1 < 1 ∨
        (cands.length : Int) < m.candidateIndex.getD 1) :
    findBestMatches u cands k (.parsed ms) = [] := by
  have key : ∀ (acc : List Profile),
      (ms.foldl (fun acc m =>
        let idx : Int := m.candidateIndex.getD 1 - 1
        if 0 ≤ idx ∧ idx < (cands.length : Int) then
          match cands[idx.toNat]? with
          | some p =>
            acc ++ [{ p with
              matchScore := some (m.matchScore.getD 0)
              matchReason := some (m.reason.getD defaultReason) }]
          | none => acc
        else acc) acc) = acc := by
    induction ms with
    | nil => intro acc; rfl
    | cons m rest ih =>
      intro acc
      have hm := h m (List.mem_cons_self m rest)
      have hrange : ¬ (0 ≤ m.candidateIndex.getD 1 - 1 ∧
          m.candidateIndex.getD 1 - 1 < (cands.length : Int)) := by
        rcases hm with hlt | hgt
        · intro ⟨h0, _⟩; omega
        · intro ⟨_, h1⟩; omega
      have := ih (fun m hm => h m (List.mem_cons_of_mem _ hm))
      simp only [List.foldl_cons, if_neg hrange]
      exact this acc
  simp only [findBestMatches]
  rw [key []]
  exact List.take_nil

theorem C5_all_out_of_range_empty_witness :
    findBestMatches sampleUser [cand1, cand2] 5
      (.parsed [⟨some 3, some 9, some "x"⟩, ⟨some 0, none, none⟩]) = [] := by
  apply C5_all_out_of_range_empty
  intro m hm
  fin_cases hm <;> simp

/-! ## C6 — short text yields a single chunk -/

/-- The claim C6 as frozen is false on the code: for a short text,
`chunk_text` returns the input itself, not the trimmed input — the
short-circuit branch performs no `strip`. -/
theorem C6_short_chunk_not_trimmed :
    chunkText (' ' :: ['a']) = [' ' :: ['a']] ∧
    trimCh (' ' :: ['a']) = ['a'] ∧
    chunkText (' ' :: ['a']) ≠ [trimCh (' ' :: ['a'])] := by
  refine ⟨by decide, by decide, by decide⟩

/-- C6 (amended): for any non-empty text of length at most `chunk_size`,
`chunk_text` returns exactly one chunk equal to the input itself (which
coincides with the trimmed input whenever the input carries no
leading/trailing whitespace, as cleaned text does); the empty text yields
the empty chunk sequence. -/
theorem C6_short_text_single_chunk (t : List Char) :
    (t ≠ [] → t.length ≤ chunkSize → chunkText t = [t]) ∧
    chunkText ([] : List Char) = [] := by
  refine ⟨fun hne hlen => ?_, rfl⟩
  simp [chunkText, hne, hlen]

theorem C6_short_text_single_chunk_witness :
    chunkText "Привет мир.".toList = ["Привет мир.".toList] := by
  exact (C6_short_text_single_chunk _).1 (by decide) (by decide)

/-! ## C8 — retrieval failure handling -/

/-- The claim C8 as frozen is false on the code: the keyword-store query
sits inside the outer `try` only, so its failure is not converted to
"zero keyword candidates" — it propagates to the outer handler and the
vector step never runs, even when the vector source is healthy. -/
theorem C8_keyword_failure_aborts :
    retrieveCandidates ["стартап"] (.error ()) (.ok [cand1]) (.ok [])
      = .error () ∧
    retrieveCandidates ["стартап"] (.error ()) (.ok [cand1]) (.ok [])
      ≠ .ok [cand1] := by
  exact ⟨rfl, by simp [retrieveCandidates]⟩

/-- C8 (amended): a failure on the vector side is caught at the retriever
boundary and degrades (Qdrant failure falls back to the SQLite
all-active-profiles list, and if that also fails, to zero vector
candidates), so the keyword results still go through; but a failure of
the lexical (keyword) store query aborts the whole retrieval through the
outer exception handler — the vector step is not reached.  The result is
an empty candidate list exactly when the keyword step contributes nothing
and both vector sources fail. -/
theorem C8_retrieval_degradation (kws : List String) (l : List Profile)
    (qd : Except Unit (List Profile)) (alla : Except Unit (List Profile)) :
    (kws ≠ [] → retrieveCandidates kws (.error ()) qd alla = .error ()) ∧
    (kws ≠ [] → retrieveCandidates kws (.ok l) (.error ()) (.error ())
      = .ok (mergeCandidates l [])) ∧
    (kws ≠ [] → retrieveCandidates kws (.ok l) (.error ()) (.ok [])
      = .ok (mergeCandidates l [])) ∧
    (kws = [] → retrieveCandidates kws (.error ()) (.error ()) (.error ())
      = .ok []) := by
  refine ⟨fun hne => ?_, fun hne => ?_, fun hne => ?_, fun hkw => ?_⟩
  · simp [retrieveCandidates, hne]
  · simp [retrieveCandidates, hne, mergeCandidates]
  · simp [retrieveCandidates, hne, mergeCandidates]
  · simp [retrieveCandidates, hkw, mergeCandidates, dedupProfiles]

theorem C8_retrieval_degradation_witness :
    retrieveCandidates ["стартап"] (.ok [cand1]) (.error ()) (.error ())
      = .ok (mergeCandidates [cand1] []) ∧
    retrieveCandidates ["стартап"] (.error ()) (.ok [cand2]) (.ok [])
      = .error () := by
  have h := C8_retrieval_degradation ["стартап"] [cand1] (.ok [cand2]) (.ok [])
  exact ⟨(C8_retrieval_degradation ["стартап"] [cand1] (.error ())
    (.error ())).2.1 (by simp), h.1 (by simp)⟩

/-! ## C10 — vector similarity search interface -/

/-- C10: `search_similar_profiles` is total: a `None` embedding or a
failed index call yields `[]`; a successful search returns at most
`limit` entries, none of which carries the requesting user's id in its
payload. -/
theorem C10_search_total_bounded (emb : Option (List ℚ)) (userId : Int)
    (lim : Nat) (res : Except Unit (List SearchHit)) :
    searchSimilarProfiles none userId lim res = [] ∧
    searchSimilarProfiles emb userId lim (.error ()) = [] ∧
    (searchSimilarProfiles emb userId lim res).length ≤ lim ∧
    (∀ p ∈ searchSimilarProfiles emb userId lim res,
      p.payload.userId ≠ some userId) := by
  refine ⟨rfl, ?_, ?_, ?_⟩
  · cases emb <;> rfl
  · cases emb with
    | none => simp [searchSimilarProfiles]
    | some v =>
      cases res with
      | error e => simp [searchSimilarProfiles]
      | ok hits => simp [searchSimilarProfiles]
  · intro p hp
    cases emb with
    | none => simp [searchSimilarProfiles] at hp
    | some v =>
      cases res with
      | error e => simp [searchSimilarProfiles] at hp
      | ok hits =>
        simp only [searchSimilarProfiles] at hp
        have hp' := List.mem_of_mem_take hp
        obtain ⟨h, hh, rfl⟩ := List.mem_map.mp hp'
        have := List.of_mem_filter hh
        simpa using this

theorem C10_search_total_bounded_witness :
    (searchSimilarProfiles (some [1/2]) 7 2
      (.ok [hitOther, hitSelf, hitNoId])).length ≤ 2 ∧
    hitOther.payload.userId ≠ some 7 := by
  have h := C10_search_total_bounded (some [1/2]) 7 2
    (.ok [hitOther, hitSelf, hitNoId])
  refine ⟨h.2.2.1, ?_⟩
  have heq : searchSimilarProfiles (some [1/2]) 7 2
        (.ok [hitOther, hitSelf, hitNoId])
      = [⟨hitOther.payload, hitOther.score⟩, ⟨hitNoId.payload, hitNoId.score⟩] := by
    rfl
  exact h.2.2.2 _ (heq ▸ List.mem_cons_self _ _)

/-! ## C2 — merge and dedup invariants

Auxiliary lemmas about the fold of `dedupStep`:
the `seen_users` component always equals the ids of the accumulated
profiles, accumulated profiles are only appended to, and every processed
id ends up in `seen_users`. -/

theorem dedup_seen_eq_ids (l : List Profile) :
    ∀ st : List Profile × List Int, st.2 = st.1.map Profile.telegramId →
      (l.foldl dedupStep st).2 = (l.foldl dedupStep st).1.map Profile.telegramId := by
  induction l with
  | nil => intro st h; exact h
  | cons p rest ih =>
    intro st h
    by_cases hm : p.telegramId ∈ st.2
    · simpa [dedupStep, hm] using ih st h
    · have h' : (st.2 ++ [p.telegramId])
          = (st.1 ++ [p]).map Profile.telegramId := by simp [h]
      simpa [dedupStep, hm] using ih (st.1 ++ [p], st.2 ++ [p.telegramId]) h'

theorem dedup_ids_nodup (l : List Profile) :
    ∀ st : List Profile × List Int, st.2 = st.1.map Profile.telegramId →
      ((st.1.map Profile.telegramId).Nodup) →
      (((l.foldl dedupStep st).1.map Profile.telegramId).Nodup) := by
  induction l with
  | nil => intro st _ h2; exact h2
  | cons p rest ih =>
    intro st h1 h2
    by_cases hm : p.telegramId ∈ st.2
    · simpa [dedupStep, hm] using ih st h1 h2
    · have hnew : ((st.1 ++ [p]).map Profile.telegramId).Nodup := by
        rw [List.map_append]
        refine List.nodup_append.mpr ⟨h2, by simp, ?_⟩
        intro x hx hx'
        simp only [List.map_cons, List.map_nil, List.mem_cons,
          List.not_mem_nil, or_false] at hx'
        subst hx'
        exact hm (h1 ▸ hx)
      have h1' : (st.2 ++ [p.telegramId])
          = (st.1 ++ [p]).map Profile.telegramId := by simp [h1]
      simpa [dedupStep, hm] using
        ih (st.1 ++ [p], st.2 ++ [p.telegramId]) h1' hnew

theorem dedup_appends (l : List Profile) :
    ∀ st : List Profile × List Int, ∃ suf,
      (l.foldl dedupStep st).1 = st.1 ++ suf ∧
      ∀ p ∈ suf, p ∈ l ∧ p.telegramId ∉ st.2 := by
  induction l with
  | nil => intro st; exact ⟨[], by simp, by simp⟩
  | cons p rest ih =>
    intro st
    by_cases hm : p.telegramId ∈ st.2
    · obtain ⟨suf, he, hp⟩ := ih st
      refine ⟨suf, by simpa [dedupStep, hm] using he, fun q hq => ?_⟩
      exact ⟨List.mem_cons_of_mem _ (hp q hq).1, (hp q hq).2⟩
    · obtain ⟨suf, he, hp⟩ := ih (st.1 ++ [p], st.2 ++ [p.telegramId])
      refine ⟨p :: suf, ?_, ?_⟩
      · simpa [dedupStep, hm, List.append_assoc] using he
      · intro q hq
        rcases List.mem_cons.mp hq with rfl | hq'
        · exact ⟨List.mem_cons_self _ _, hm⟩
        · refine ⟨List.mem_cons_of_mem _ (hp q hq').1, fun hmem => ?_⟩
          exact (hp q hq').2 (by simp [hmem])

theorem dedup_seen_mono (l : List Profile) :
    ∀ st : List Profile × List Int, ∀ x ∈ st.2,
      x ∈ (l.foldl dedupStep st).2 := by
  induction l with
  | nil => intro st x hx; exact hx
  | cons p rest ih =>
    intro st x hx
    by_cases hm : p.telegramId ∈ st.2
    · simpa [dedupStep, hm] using ih st x hx
    · simpa [dedupStep, hm] using
        ih (st.1 ++ [p], st.2 ++ [p.telegramId]) x (by simp [hx])

theorem dedup_seen_complete (l : List Profile) :
    ∀ st : List Profile × List Int, ∀ p ∈ l,
      p.telegramId ∈ (l.foldl dedupStep st).2 := by
  induction l with
  | nil => intro st p hp; simp at hp
  | cons q rest ih =>
    intro st p hp
    rcases List.mem_cons.mp hp with rfl | hp'
    · by_cases hm : p.telegramId ∈ st.2
      · simpa [dedupStep, hm] using dedup_seen_mono rest st _ hm
      · simpa [dedupStep, hm] using
          dedup_seen_mono rest (st.1 ++ [p], st.2 ++ [p.telegramId]) _ (by simp)
    · by_cases hm : q.telegramId ∈ st.2
      · simpa [dedupStep, hm] using ih st p hp'
      · simpa [dedupStep, hm] using
          ih (st.1 ++ [q], st.2 ++ [q.telegramId]) p hp'

/-- C2: the merged candidate list contains each telegram id at most once
(and, before the 20-cap, exactly once per input id), every entry comes
from one of the two input lists, keyword-originated entries appear before
vector-originated entries, an id present in both lists survives as its
keyword-sourced entry, and the merged list is capped at 20 entries. -/
theorem C2_merge_dedup_invariant (kw vec : List Profile) :
    ((mergeCandidates kw vec).map Profile.telegramId).Nodup ∧
    (mergeCandidates kw vec).length ≤ 20 ∧
    (∀ p ∈ mergeCandidates kw vec, p ∈ kw ∨ p ∈ vec) ∧
    (∀ p ∈ mergeCandidates kw vec,
      p.telegramId ∈ kw.map Profile.telegramId → p ∈ kw) ∧
    (∃ a b, mergeCandidates kw vec = a ++ b ∧
      (∀ p ∈ a, p ∈ kw) ∧ (∀ p ∈ b, p ∈ vec)) ∧
    (∀ p ∈ kw ++ vec,
      ((dedupProfiles (kw ++ vec)).map Profile.telegramId).count p.telegramId
        = 1) := by
  have hsplit : (kw ++ vec).foldl dedupStep ([], [])
      = vec.foldl dedupStep (kw.foldl dedupStep ([], [])) :=
    List.foldl_append _ _ _ _
  set A := kw.foldl dedupStep ([], []) with hA
  have hAseen : A.2 = A.1.map Profile.telegramId :=
    dedup_seen_eq_ids kw ([], []) rfl
  have hAmem : ∀ p ∈ A.1, p ∈ kw := by
    obtain ⟨suf, he, hp⟩ := dedup_appends kw ([], [])
    intro p hp'
    rw [he] at hp'
    exact (hp p (by simpa using hp')).1
  obtain ⟨suf, hFe, hFp⟩ := dedup_appends vec A
  have hNodup : ((dedupProfiles (kw ++ vec)).map Profile.telegramId).Nodup := by
    exact dedup_ids_nodup (kw ++ vec) ([], []) rfl (by simp)
  have hMemAll : ∀ p ∈ dedupProfiles (kw ++ vec), p ∈ kw ∨ p ∈ vec := by
    obtain ⟨s, he, hp⟩ := dedup_appends (kw ++ vec) ([], [])
    intro p hp'
    unfold dedupProfiles at hp'
    rw [he] at hp'
    exact List.mem_append.mp ((hp p (by simpa using hp')).1)
  have hDedupEq : dedupProfiles (kw ++ vec) = A.1 ++ suf := by
    unfold dedupProfiles
    rw [hsplit, hFe]
  refine ⟨?_, ?_, ?_, ?_, ?_, ?_⟩
  · have : (mergeCandidates kw vec).map Profile.telegramId
        = ((dedupProfiles (kw ++ vec)).map Profile.telegramId).take 20 := by
      simp [mergeCandidates, List.map_take]
    rw [this]
    exact hNodup.sublist (List.take_sublist _ _)
  · simp [mergeCandidates]
  · intro p hp
    exact hMemAll p (List.mem_of_mem_take hp)
  · intro p hp hid
    have hp' : p ∈ dedupProfiles (kw ++ vec) := List.mem_of_mem_take hp
    rw [hDedupEq] at hp'
    rcases List.mem_append.mp hp' with hin | hin
    · exact hAmem p hin
    · exfalso
      obtain ⟨q, hq, hqid⟩ := List.mem_map.mp hid
      have : q.telegramId ∈ A.2 := dedup_seen_complete kw ([], []) q hq
      exact (hFp p hin).2 (hqid ▸ this)
  · refine ⟨A.1.take 20, suf.take (20 - A.1.length), ?_, ?_, ?_⟩
    · rw [mergeCandidates, hDedupEq, List.take_append_eq_append_take]
    · intro p hp; exact hAmem p (List.mem_of_mem_take hp)
    · intro p hp; exact (hFp p (List.mem_of_mem_take hp)).1
  · intro p hp
    have hseen : p.telegramId ∈ ((kw ++ vec).foldl dedupStep ([], [])).2 :=
      dedup_seen_complete (kw ++ vec) ([], []) p hp
    have hmem : p.telegramId ∈ (dedupProfiles (kw ++ vec)).map Profile.telegramId := by
      unfold dedupProfiles
      rw [← dedup_seen_eq_ids (kw ++ vec) ([], []) rfl]
      exact hseen
    exact List.count_eq_one_of_mem hNodup hmem

theorem C2_merge_dedup_invariant_witness :
    ((mergeCandidates [cand1, cand2, cand1] [cand2, cand3]).map
      Profile.telegramId).Nodup ∧
    mergeCandidates [cand1, cand2, cand1] [cand2, cand3]
      = [cand1, cand2, cand3] ∧
    cand2 ∈ [cand1, cand2, cand1] := by
  refine ⟨(C2_merge_dedup_invariant [cand1, cand2, cand1] [cand2, cand3]).1,
    by decide, ?_⟩
  exact (C2_merge_dedup_invariant [cand1, cand2, cand1] [cand2, cand3]).2.2.2.1
    cand2 (by decide) (by decide)

/-! ## C7 — chunk length bound -/

theorem trimCh_length_le (l : List Char) : (trimCh l).length ≤ l.length := by
  unfold trimCh
  rw [List.length_reverse]
  refine le_trans (List.dropWhile_sublist _).length_le ?_
  rw [List.length_reverse]
  exact (List.dropWhile_sublist _).length_le

theorem sentStep_overflow (chunks : List (List Char)) (current s : List Char)
    (h1 : chunkSize < current.length + s.length) (h2 : current ≠ []) :
    sentStep (chunks, current) s =
      (chunks ++ [trimCh current],
        (if chunkOverlap < current.length then
          current.drop (current.length - chunkOverlap) else current)
        ++ [' '] ++ s) := by
  simp [sentStep, h1, h2]

theorem sentStep_fits (chunks : List (List Char)) (current s : List Char)
    (h1 : ¬ chunkSize < current.length + s.length) :
    sentStep (chunks, current) s =
      (chunks, if current = [] then s else current ++ [' '] ++ s) := by
  simp [sentStep, h1]

/-- Invariant of the greedy sentence-packing loop: provided every
sentence fits in `chunk_size`, every emitted chunk and the running buffer
stay within `chunk_size + chunk_overlap + 1` characters (an overlap
prefix plus the joining space are not counted by the size check). -/
theorem chunk_fold_bound (sents : List (List Char))
    (hs : ∀ s ∈ sents, s.length ≤ chunkSize) :
    ∀ st : List (List Char) × List Char,
      (∀ c ∈ st.1, c.length ≤ chunkSize + chunkOverlap + 1) →
      st.2.length ≤ chunkSize + chunkOverlap + 1 →
      (∀ c ∈ (sents.foldl sentStep st).1,
        c.length ≤ chunkSize + chunkOverlap + 1) ∧
      (sents.foldl sentStep st).2.length ≤ chunkSize + chunkOverlap + 1 := by
  induction sents with
  | nil => intro st h1 h2; exact ⟨h1, h2⟩
  | cons s rest ih =>
    intro st h1 h2
    obtain ⟨chunks, current⟩ := st
    have hslen : s.length ≤ chunkSize := hs s (List.mem_cons_self _ _)
    have hrest : ∀ x ∈ rest, x.length ≤ chunkSize :=
      fun x hx => hs x (List.mem_cons_of_mem _ hx)
    rw [List.foldl_cons]
    by_cases hov : chunkSize < current.length + s.length
    · have hcur : current ≠ [] := by
        intro hnil
        rw [hnil] at hov
        simp only [List.length_nil, Nat.zero_add] at hov
        omega
      rw [sentStep_overflow chunks current s hov hcur]
      refine ih hrest _ ?_ ?_
      · intro c hc
        rcases List.mem_append.mp hc with hc' | hc'
        · exact h1 c hc'
        · simp only [List.mem_singleton] at hc'
          subst hc'
          exact le_trans (trimCh_length_le current) h2
      · have hovlen : (if chunkOverlap < current.length then
            current.drop (current.length - chunkOverlap) else current).length
            ≤ chunkOverlap := by
          split
          · rename_i hlt
            rw [List.length_drop]
            omega
          · rename_i hge
            omega
        simp only [List.length_append, List.length_cons, List.length_nil]
        omega
    · rw [sentStep_fits chunks current s hov]
      refine ih hrest _ h1 ?_
      by_cases hce : current = []
      · simp only [if_pos hce]
        omega
      · simp only [if_neg hce, List.length_append, List.length_cons,
          List.length_nil]
        omega

set_option maxRecDepth 10000 in
/-- The claim C7 as frozen is false on the code: two 600-character
sentences are packed into a single 1201-character chunk, which exceeds
`chunk_size = 1200` — the `+ " " +` join and the overlap prefix are not
counted by the size check, so emitted chunks can exceed the bound. -/
theorem C7_chunk_exceeds_max_size :
    ¬ (∀ c ∈ chunkText bigTwoSentences, c.length ≤ chunkSize) := by
  decide

/-- C7 (amended): chunks are bounded contiguous pieces only up to the
uncounted joining space and overlap prefix: whenever every sentence of
the text fits in `chunk_size`, every emitted chunk has length at most
`chunk_size + chunk_overlap + 1`.  (A sentence longer than `chunk_size`
is hard-split on word boundaries only when it starts a fresh buffer;
carried behind an overlap prefix it is not split, so no bound holds
without the per-sentence hypothesis.) -/
theorem C7_chunk_length_bound (t : List Char)
    (hs : ∀ s ∈ splitIntoSentences t, s.length ≤ chunkSize) :
    ∀ c ∈ chunkText t, c.length ≤ chunkSize + chunkOverlap + 1 := by
  intro c hc
  unfold chunkText at hc
  by_cases ht : t = []
  · simp [ht] at hc
  · by_cases hlen : t.length ≤ chunkSize
    · simp only [ht, if_neg, hlen, if_true, if_pos, if_neg ht] at hc
      have : c = t := by
        simpa [ht, hlen] using hc
      subst this
      exact hlen.trans (by omega)
    · have hinv := chunk_fold_bound (splitIntoSentences t) hs ([], [])
        (by simp) (by simp)
      simp only [ht, hlen, if_neg, ite_false, if_false] at hc
      have hc' : c ∈ (if ((splitIntoSentences t).foldl sentStep ([], [])).2 ≠ [] then
          ((splitIntoSentences t).foldl sentStep ([], [])).1
            ++ [trimCh ((splitIntoSentences t).foldl sentStep ([], [])).2]
          else ((splitIntoSentences t).foldl sentStep ([], [])).1) := by
        simpa [ht, hlen] using hc
      by_cases hne : ((splitIntoSentences t).foldl sentStep ([], [])).2 = []
      · rw [if_neg (by simpa using hne)] at hc'
        exact hinv.1 c hc'
      · rw [if_pos hne] at hc'
        rcases List.mem_append.mp hc' with hin | hin
        · exact hinv.1 c hin
        · simp only [List.mem_singleton] at hin
          subst hin
          exact le_trans (trimCh_length_le _) hinv.2

theorem C7_chunk_length_bound_witness :
    ("ab.".toList).length ≤ chunkSize + chunkOverlap + 1 := by
  exact C7_chunk_length_bound "ab.".toList (by decide) "ab.".toList (by decide)

/-! ## C9 — `clean_text` idempotence

Auxiliary lemmas about `collapseWs`, `dropWhile` and `trimCh`, leading
to: `clean_text` is a fixpoint operator on strings made of permitted
characters, but not idempotent in general (deleting a disallowed
character can bring two spaces together, which only a second pass would
collapse). -/

theorem collapseWs_cons_space_true {c : Char} (h : isSpaceCh c = true)
    (rest : List Char) : collapseWs true (c :: rest) = collapseWs true rest := by
  simp [collapseWs, h]

theorem collapseWs_cons_space_false {c : Char} (h : isSpaceCh c = true)
    (rest : List Char) :
    collapseWs false (c :: rest) = ' ' :: collapseWs true rest := by
  simp [collapseWs, h]

theorem collapseWs_cons_nonspace {c : Char} (h : isSpaceCh c = false)
    (b : Bool) (rest : List Char) :
    collapseWs b (c :: rest) = c :: collapseWs false rest := by
  cases b <;> simp [collapseWs, h]

theorem mem_collapseWs {c : Char} :
    ∀ (b : Bool) (l : List Char), c ∈ collapseWs b l →
      c = ' ' ∨ (c ∈ l ∧ isSpaceCh c = false) := by
  intro b l
  induction l generalizing b with
  | nil => intro h; simp [collapseWs] at h
  | cons d rest ih =>
    intro h
    by_cases hd : isSpaceCh d
    · cases b with
      | true =>
        rw [collapseWs_cons_space_true hd] at h
        rcases ih true h with h' | h'
        · exact Or.inl h'
        · exact Or.inr ⟨List.mem_cons_of_mem _ h'.1, h'.2⟩
      | false =>
        rw [collapseWs_cons_space_false hd] at h
        rcases List.mem_cons.mp h with rfl | h'
        · exact Or.inl rfl
        · rcases ih true h' with h'' | h''
          · exact Or.inl h''
          · exact Or.inr ⟨List.mem_cons_of_mem _ h''.1, h''.2⟩
    · rw [collapseWs_cons_nonspace (by simpa using hd)] at h
      rcases List.mem_cons.mp h with rfl | h'
      · exact Or.inr ⟨List.mem_cons_self _ _, by simpa using hd⟩
      · rcases ih false h' with h'' | h''
        · exact Or.inl h''
        · exact Or.inr ⟨List.mem_cons_of_mem _ h''.1, h''.2⟩

theorem collapseWs_head_true :
    ∀ (l : List Char) (c : Char), (collapseWs true l).head? = some c →
      isSpaceCh c = false := by
  intro l
  induction l with
  | nil => intro c h; simp [collapseWs] at h
  | cons d rest ih =>
    intro c h
    by_cases hd : isSpaceCh d
    · rw [collapseWs_cons_space_true hd] at h
      exact ih c h
    · rw [collapseWs_cons_nonspace (by simpa using hd)] at h
      simp only [List.head?_cons, Option.some.injEq] at h
      subst h
      simpa using hd

theorem collapseWs_true_eq_false (l : List Char)
    (h : ∀ c, l.head? = some c → isSpaceCh c = false) :
    collapseWs true l = collapseWs false l := by
  cases l with
  | nil => rfl
  | cons d rest =>
    have hd := h d rfl
    rw [collapseWs_cons_nonspace hd, collapseWs_cons_nonspace hd]

theorem collapseWs_chain' :
    ∀ (l : List Char) (b : Bool), (collapseWs b l).Chain'
      (fun a a' => ¬(isSpaceCh a = true ∧ isSpaceCh a' = true)) := by
  intro l
  induction l with
  | nil => intro b; cases b <;> exact List.chain'_nil
  | cons d rest ih =>
    intro b
    by_cases hd : isSpaceCh d
    · cases b with
      | true =>
        rw [collapseWs_cons_space_true hd]
        exact ih true
      | false =>
        rw [collapseWs_cons_space_false hd]
        refine List.chain'_cons'.mpr ⟨?_, ih true⟩
        intro c hc h'
        exact (by simpa [collapseWs_head_true rest c hc] using h'.2)
    · rw [collapseWs_cons_nonspace (by simpa using hd)]
      refine List.chain'_cons'.mpr ⟨?_, ih false⟩
      intro c _ h'
      exact (by simpa [hd] using h'.1)

theorem collapseWs_getLast :
    ∀ (l : List Char) (b : Bool) (c : Char), l.getLast? = some c →
      isSpaceCh c = false → (collapseWs b l).getLast? = some c := by
  intro l
  induction l with
  | nil => intro b c h _; simp at h
  | cons d rest ih =>
    intro b c h hc
    cases rest with
    | nil =>
      simp only [List.getLast?_singleton, Option.some.injEq] at h
      subst h
      cases b with
      | true =>
        rw [collapseWs_cons_nonspace hc]
        rfl
      | false =>
        rw [collapseWs_cons_nonspace hc]
        rfl
    | cons e rest2 =>
      have h' : (e :: rest2).getLast? = some c := by
        simpa [List.getLast?_cons_cons] using h
      by_cases hd : isSpaceCh d
      · have htail := ih true c h' hc
        have hne : collapseWs true (e :: rest2) ≠ [] := by
          intro hnil
          rw [hnil] at htail
          simp at htail
        cases b with
        | true =>
          rw [collapseWs_cons_space_true hd]
          exact htail
        | false =>
          rw [collapseWs_cons_space_false hd]
          obtain ⟨z1, z2, hz12⟩ := List.exists_cons_of_ne_nil hne
          rw [hz12] at htail ⊢
          simpa [List.getLast?_cons_cons] using htail
      · rw [collapseWs_cons_nonspace (by simpa using hd)]
        have htail := ih false c h' hc
        have hne : collapseWs false (e :: rest2) ≠ [] := by
          intro hnil
          rw [hnil] at htail
          simp at htail
        obtain ⟨z1, z2, hz12⟩ := List.exists_cons_of_ne_nil hne
        rw [hz12] at htail ⊢
        simpa [List.getLast?_cons_cons] using htail

theorem collapseWs_fixpoint :
    ∀ (l : List Char),
      l.Chain' (fun a a' => ¬(isSpaceCh a = true ∧ isSpaceCh a' = true)) →
      (∀ c ∈ l, isSpaceCh c = true → c = ' ') →
      collapseWs false l = l := by
  intro l
  induction l with
  | nil => intro _ _; rfl
  | cons d rest ih =>
    intro hchain hsp
    have hrest := (List.chain'_cons'.mp hchain).2
    have hsprest : ∀ c ∈ rest, isSpaceCh c = true → c = ' ' :=
      fun c hc => hsp c (List.mem_cons_of_mem _ hc)
    by_cases hd : isSpaceCh d
    · have hd' : d = ' ' := hsp d (List.mem_cons_self _ _) hd
      have hheadrest : ∀ c, rest.head? = some c → isSpaceCh c = false := by
        intro c hc
        have := (List.chain'_cons'.mp hchain).1 c hc
        by_contra hcontra
        exact this ⟨hd, by simpa using hcontra⟩
      rw [collapseWs_cons_space_false hd,
        collapseWs_true_eq_false rest hheadrest, ih hrest hsprest, hd']
    · rw [collapseWs_cons_nonspace (by simpa using hd)]
      rw [ih hrest hsprest]

theorem head?_dropWhile {p : Char → Bool} :
    ∀ (l : List Char) (c : Char), (l.dropWhile p).head? = some c →
      p c = false := by
  intro l
  induction l with
  | nil => intro c h; simp at h
  | cons d rest ih =>
    intro c h
    by_cases hd : p d
    · rw [List.dropWhile_cons_of_pos hd] at h
      exact ih c h
    · rw [List.dropWhile_cons_of_neg hd] at h
      simp only [List.head?_cons, Option.some.injEq] at h
      subst h
      simpa using hd

theorem getLast?_dropWhile {p : Char → Bool} :
    ∀ (l : List Char), l.dropWhile p ≠ [] →
      (l.dropWhile p).getLast? = l.getLast? := by
  intro l
  induction l with
  | nil => intro h; simp at h
  | cons d rest ih =>
    intro h
    by_cases hd : p d
    · rw [List.dropWhile_cons_of_pos hd] at h ⊢
      cases rest with
      | nil => simp at h
      | cons e rest2 =>
        rw [ih h, List.getLast?_cons_cons]
    · rw [List.dropWhile_cons_of_neg hd]

theorem dropWhile_eq_self_of_head {p : Char → Bool} (l : List Char)
    (h : ∀ c, l.head? = some c → p c = false) : l.dropWhile p = l := by
  cases l with
  | nil => rfl
  | cons d rest => exact List.dropWhile_cons_of_neg (by simp [h d rfl])

theorem trimCh_head (l : List Char) (c : Char)
    (h : (trimCh l).head? = some c) : isSpaceCh c = false := by
  unfold trimCh at h
  rw [List.head?_reverse] at h
  have hne : (l.dropWhile isSpaceCh).reverse.dropWhile isSpaceCh ≠ [] := by
    intro hnil
    rw [hnil] at h
    simp at h
  rw [getLast?_dropWhile _ hne, List.getLast?_reverse] at h
  exact head?_dropWhile l c h

theorem trimCh_getLast (l : List Char) (c : Char)
    (h : (trimCh l).getLast? = some c) : isSpaceCh c = false := by
  unfold trimCh at h
  rw [List.getLast?_reverse] at h
  exact head?_dropWhile _ c h

theorem trimCh_eq_self (l : List Char)
    (h1 : ∀ c, l.head? = some c → isSpaceCh c = false)
    (h2 : ∀ c, l.getLast? = some c → isSpaceCh c = false) :
    trimCh l = l := by
  unfold trimCh
  rw [dropWhile_eq_self_of_head l h1]
  rw [dropWhile_eq_self_of_head l.reverse (by
    intro c hc
    rw [List.head?_reverse] at hc
    exact h2 c hc)]
  exact List.reverse_reverse l

theorem mem_trimCh {c : Char} (l : List Char) (h : c ∈ trimCh l) : c ∈ l := by
  unfold trimCh at h
  rw [List.mem_reverse] at h
  have h' := (List.dropWhile_sublist (l := (l.dropWhile isSpaceCh).reverse)
    isSpaceCh).mem h
  rw [List.mem_reverse] at h'
  exact (List.dropWhile_sublist isSpaceCh).mem h'

/-- `clean_text` is the identity on its own normal forms: strings of
permitted characters whose whitespace is single interior `' '`
characters. -/
theorem cleanText_fixpoint (m : List Char)
    (hall : ∀ c ∈ m, isAllowedCh c = true)
    (hchain : m.Chain' (fun a a' => ¬(isSpaceCh a = true ∧ isSpaceCh a' = true)))
    (hsp : ∀ c ∈ m, isSpaceCh c = true → c = ' ')
    (hhead : ∀ c, m.head? = some c → isSpaceCh c = false)
    (hlast : ∀ c, m.getLast? = some c → isSpaceCh c = false) :
    cleanText m = m := by
  by_cases hm : m = []
  · simp [cleanText, hm]
  · unfold cleanText
    rw [if_neg hm, trimCh_eq_self m hhead hlast,
      collapseWs_fixpoint m hchain hsp]
    exact List.filter_eq_self.mpr hall

/-- The claim C9 as frozen is false on the code: `clean_text` is not
idempotent.  Deleting the disallowed `@` from `"a @ b"` leaves the two
spaces around it adjacent, and a second pass collapses them. -/
theorem C9_clean_text_not_idempotent :
    cleanText (cleanText "a @ b".toList) ≠ cleanText "a @ b".toList ∧
    cleanText "a @ b".toList = "a  b".toList ∧
    cleanText "a  b".toList = "a b".toList := by
  refine ⟨by decide, by decide, by decide⟩

/-- C9 (amended): `clean_text` is total (the empty string maps to the
empty string, and every input maps to some output), and it is idempotent
on every input consisting solely of permitted characters; on inputs with
disallowed characters a second application can differ, because deletion
can make two whitespace characters adjacent. -/
theorem C9_clean_text_idempotent_on_allowed (l : List Char) :
    cleanText ([] : List Char) = [] ∧
    ((∀ c ∈ l, isAllowedCh c = true) →
      cleanText (cleanText l) = cleanText l) := by
  refine ⟨rfl, fun hall => ?_⟩
  by_cases hl : l = []
  · simp [hl, cleanText]
  · have hr : cleanText l = (collapseWs false (trimCh l)).filter isAllowedCh := by
      simp [cleanText, hl]
    have hrc : cleanText l = collapseWs false (trimCh l) := by
      rw [hr]
      refine List.filter_eq_self.mpr ?_
      intro c hc
      rcases mem_collapseWs false (trimCh l) hc with rfl | ⟨hc', _⟩
      · rfl
      · exact hall c (mem_trimCh l hc')
    refine cleanText_fixpoint _ ?_ ?_ ?_ ?_ ?_
    · intro c hc
      rw [hr] at hc
      exact List.of_mem_filter hc
    · rw [hrc]
      exact collapseWs_chain' _ false
    · intro c hc hcs
      rw [hrc] at hc
      rcases mem_collapseWs false (trimCh l) hc with rfl | ⟨_, hc2⟩
      · rfl
      · rw [hcs] at hc2; cases hc2
    · intro c hc
      rw [hrc] at hc
      cases htl : trimCh l with
      | nil => rw [htl] at hc; simp [collapseWs] at hc
      | cons d rest =>
        have hd : isSpaceCh d = false := trimCh_head l d (by rw [htl]; rfl)
        rw [htl, collapseWs_cons_nonspace hd] at hc
        simp only [List.head?_cons, Option.some.injEq] at hc
        subst hc
        exact hd
    · intro c hc
      rw [hrc] at hc
      by_cases htl : trimCh l = []
      · rw [htl] at hc; simp [collapseWs] at hc
      · obtain ⟨c0, hc0⟩ := Option.isSome_iff_exists.mp
          (List.getLast?_isSome.mpr htl)
        have hc0s : isSpaceCh c0 = false := trimCh_getLast l c0 hc0
        have := collapseWs_getLast (trimCh l) false c0 hc0 hc0s
        rw [this] at hc
        injection hc with hc
        subst hc
        exact hc0s

theorem C9_clean_text_idempotent_on_allowed_witness :
    cleanText (cleanText "Привет,  мир!".toList)
      = cleanText "Привет,  мир!".toList := by
  exact (C9_clean_text_idempotent_on_allowed "Привет,  мир!".toList).2
    (by decide)

/-! ## C4 — keyword extraction

Auxiliary lemmas about `distinctInOrder` (the `Counter` key order) and
`insertByCount` (the stable descending sort behind `most_common`). -/

theorem mem_distinctInOrder (w : List Char) :
    ∀ l, w ∈ distinctInOrder l ↔ w ∈ l := by
  intro l
  induction l with
  | nil => simp [distinctInOrder]
  | cons x rest ih =>
    simp only [distinctInOrder, List.mem_cons, List.mem_filter,
      decide_eq_true_eq, ih]
    constructor
    · rintro (rfl | ⟨hmem, _⟩)
      · exact Or.inl rfl
      · exact Or.inr (ih.mp (by simpa [ih] using hmem))
    · rintro (rfl | hmem)
      · exact Or.inl rfl
      · by_cases hwx : w = x
        · exact Or.inl hwx
        · exact Or.inr ⟨by simpa [ih] using hmem, by simpa using hwx⟩

theorem nodup_distinctInOrder : ∀ l, (distinctInOrder l).Nodup := by
  intro l
  induction l with
  | nil => exact List.nodup_nil
  | cons x rest ih =>
    refine List.nodup_cons.mpr ⟨?_, ih.filter _⟩
    intro hmem
    have h := (List.mem_filter.mp hmem).2
    simp at h

theorem pairwise_firstIdx_distinctInOrder :
    ∀ l : List (List Char), (distinctInOrder l).Pairwise
      (fun w v => firstIdx l w < firstIdx l v) := by
  intro l
  induction l with
  | nil => exact List.Pairwise.nil
  | cons x rest ih =>
    simp only [distinctInOrder]
    refine List.pairwise_cons.mpr ⟨?_, ?_⟩
    · intro v hv
      have hvx0 : v ≠ x := by simpa using (List.mem_filter.mp hv).2
      have hvx : x ≠ v := hvx0.symm
      simp only [firstIdx, if_pos rfl, if_neg hvx]
      exact Nat.succ_pos _
    · refine ((ih.filter _).imp_of_mem ?_)
      intro a b ha hb hab
      have hax0 : a ≠ x := by simpa using (List.mem_filter.mp ha).2
      have hbx0 : b ≠ x := by simpa using (List.mem_filter.mp hb).2
      simp only [firstIdx, if_neg hax0.symm, if_neg hbx0.symm]
      omega

theorem mem_insertByCount (y x : List Char × Nat) :
    ∀ l, y ∈ insertByCount x l ↔ y = x ∨ y ∈ l := by
  intro l
  induction l with
  | nil => simp [insertByCount]
  | cons z zs ih =>
    by_cases hz : z.2 < x.2
    · simp only [insertByCount, if_pos hz, List.mem_cons]
    · simp only [insertByCount, if_neg hz, List.mem_cons, ih]
      tauto

theorem insertByCount_perm (x : List Char × Nat) :
    ∀ l, List.Perm (insertByCount x l) (x :: l) := by
  intro l
  induction l with
  | nil => exact List.Perm.refl _
  | cons z zs ih =>
    by_cases hz : z.2 < x.2
    · rw [insertByCount, if_pos hz]
    · rw [insertByCount, if_neg hz]
      exact (ih.cons z).trans (List.Perm.swap x z zs)

theorem pairwise_insertByCount (pos : List Char × Nat → Nat)
    (x : List Char × Nat) :
    ∀ l, l.Pairwise (fun a b => b.2 < a.2 ∨ (a.2 = b.2 ∧ pos a < pos b)) →
      (∀ y ∈ l, pos y < pos x) →
      (insertByCount x l).Pairwise
        (fun a b => b.2 < a.2 ∨ (a.2 = b.2 ∧ pos a < pos b)) := by
  intro l
  induction l with
  | nil => intro _ _; simp [insertByCount]
  | cons z zs ih =>
    intro hpw hpos
    obtain ⟨hz_all, hzs⟩ := List.pairwise_cons.mp hpw
    by_cases hz : z.2 < x.2
    · rw [insertByCount, if_pos hz]
      refine List.pairwise_cons.mpr ⟨?_, hpw⟩
      intro b hb
      rcases List.mem_cons.mp hb with rfl | hb'
      · exact Or.inl hz
      · rcases hz_all b hb' with h' | h'
        · exact Or.inl (lt_trans h' hz)
        · exact Or.inl (h'.1 ▸ hz)
    · rw [insertByCount, if_neg hz]
      refine List.pairwise_cons.mpr ⟨?_, ?_⟩
      · intro b hb
        rcases (mem_insertByCount b x zs).mp hb with heq | hb'
        · rw [heq]
          rcases Nat.lt_or_ge x.2 z.2 with h' | h'
          · exact Or.inl h'
          · have : x.2 = z.2 := Nat.le_antisymm (Nat.not_lt.mp hz) h'
            exact Or.inr ⟨this.symm, hpos z (List.mem_cons_self _ _)⟩
        · exact hz_all b hb'
      · exact ih hzs (fun y hy => hpos y (List.mem_cons_of_mem _ hy))

/-- Specification of `Counter(·).most_common(10)` keys: at most ten
distinct elements of the input, ordered by descending count with ties in
first-seen order; when at most ten distinct elements exist, all of them
are returned. -/

theorem foldl_insertByCount_perm :
    ∀ (l acc : List (List Char × Nat)),
      List.Perm (l.foldl (fun acc x => insertByCount x acc) acc)
        (acc ++ l) := by
  intro l
  induction l with
  | nil => intro acc; simp
  | cons x rest ih =>
    intro acc
    rw [List.foldl_cons]
    refine (ih (insertByCount x acc)).trans ?_
    refine (((insertByCount_perm x acc).append_right rest).trans ?_)
    have h1 : (x :: acc) ++ rest = x :: (acc ++ rest) := rfl
    rw [h1]
    exact List.perm_middle.symm

theorem foldl_insertByCount_pairwise (pos : List Char × Nat → Nat) :
    ∀ (l acc : List (List Char × Nat)),
      acc.Pairwise (fun a b => b.2 < a.2 ∨ (a.2 = b.2 ∧ pos a < pos b)) →
      (∀ y ∈ acc, ∀ x ∈ l, pos y < pos x) →
      l.Pairwise (fun a b => pos a < pos b) →
      (l.foldl (fun acc x => insertByCount x acc) acc).Pairwise
        (fun a b => b.2 < a.2 ∨ (a.2 = b.2 ∧ pos a < pos b)) := by
  intro l
  induction l with
  | nil => intro acc h _ _; exact h
  | cons x rest ih =>
    intro acc hacc hcross hl
    obtain ⟨hx_rest, hrest⟩ := List.pairwise_cons.mp hl
    rw [List.foldl_cons]
    refine ih (insertByCount x acc) ?_ ?_ hrest
    · exact pairwise_insertByCount pos x acc hacc
        (fun y hy => hcross y hy x (List.mem_cons_self _ _))
    · intro y hy z hz
      rcases (mem_insertByCount y x acc).mp hy with rfl | hy'
      · exact hx_rest z hz
      · exact hcross y hy' z (List.mem_cons_of_mem _ hz)

theorem mostCommon10_spec (kws : List (List Char)) :
    (mostCommon10 kws).length ≤ 10 ∧
    (mostCommon10 kws).Nodup ∧
    (∀ w ∈ mostCommon10 kws, w ∈ kws) ∧
    (mostCommon10 kws).Pairwise (fun w v =>
      kws.count v < kws.count w ∨
      (kws.count w = kws.count v ∧ firstIdx kws w < firstIdx kws v)) ∧
    ((distinctInOrder kws).length ≤ 10 → ∀ w ∈ kws, w ∈ mostCommon10 kws) := by
  have hdef : mostCommon10 kws =
      ((((distinctInOrder kws).map (fun w => (w, kws.count w))).foldl
        (fun acc x => insertByCount x acc) []).map Prod.fst).take 10 := rfl
  set pairs := (distinctInOrder kws).map (fun w => (w, kws.count w)) with hpairs
  set sorted := pairs.foldl (fun acc x => insertByCount x acc) [] with hsorted
  have hperm : List.Perm sorted pairs := by
    simpa using foldl_insertByCount_perm pairs []
  have hmapfst : pairs.map Prod.fst = distinctInOrder kws := by
    rw [hpairs, List.map_map]
    exact List.map_id _
  have hfstperm : List.Perm (sorted.map Prod.fst) (distinctInOrder kws) := by
    rw [← hmapfst]
    exact hperm.map _
  have hcounts : ∀ p ∈ sorted, p.2 = kws.count p.1 := by
    intro p hp
    have hp' : p ∈ pairs := hperm.mem_iff.mp hp
    obtain ⟨w, _, rfl⟩ := List.mem_map.mp hp'
    rfl
  refine ⟨?_, ?_, ?_, ?_, ?_⟩
  · rw [hdef]
    simp
  · rw [hdef]
    exact (hfstperm.nodup_iff.mpr (nodup_distinctInOrder kws)).sublist
      (List.take_sublist _ _)
  · intro w hw
    rw [hdef] at hw
    have hw' := List.mem_of_mem_take hw
    exact (mem_distinctInOrder w kws).mp (hfstperm.mem_iff.mp hw')
  · have hpairs_pos : pairs.Pairwise
        (fun a b => firstIdx kws a.1 < firstIdx kws b.1) := by
      rw [hpairs]
      exact List.pairwise_map.mpr (pairwise_firstIdx_distinctInOrder kws)
    have hsortpw : sorted.Pairwise (fun a b => b.2 < a.2 ∨
        (a.2 = b.2 ∧ firstIdx kws a.1 < firstIdx kws b.1)) := by
      rw [hsorted]
      exact foldl_insertByCount_pairwise (fun p => firstIdx kws p.1) pairs []
        List.Pairwise.nil (by simp) hpairs_pos
    have hsortpw' : sorted.Pairwise (fun a b =>
        kws.count b.1 < kws.count a.1 ∨
        (kws.count a.1 = kws.count b.1 ∧
          firstIdx kws a.1 < firstIdx kws b.1)) := by
      refine hsortpw.imp_of_mem ?_
      intro a b ha hb hab
      rw [← hcounts a ha, ← hcounts b hb]
      exact hab
    rw [hdef]
    exact (List.pairwise_map.mpr hsortpw').sublist (List.take_sublist _ _)
  · intro h10 w hw
    have hlen : (sorted.map Prod.fst).length ≤ 10 := by
      rw [hfstperm.length_eq]
      exact h10
    rw [hdef, List.take_of_length_le hlen]
    exact hfstperm.mem_iff.mpr ((mem_distinctInOrder w kws).mpr hw)

/-- The claim C4 as frozen is false on the code: a three-letter word
over the target alphabet that is not a stop word is still excluded,
because the final filter requires `len(word) > 3` — only words of at
least four letters are eligible. -/
theorem C4_three_letter_word_excluded :
    extractKeywords "мир мир мир".toList = [] ∧
    ("мир".toList).length = 3 ∧
    ("мир".toList).all isKwCh = true ∧
    "мир".toList ∉ stopWords := by
  refine ⟨by decide, by decide, by decide, by decide⟩

/-- C4 (amended): `extract_keywords` returns an ordered sequence of at
most 10 distinct lower-cased tokens; eligible are exactly the words of
length at least 4 (not 3) over the lower-case target alphabet that are
not stop words; the sequence is ordered most-frequent-first with ties
broken by first-seen order (and is deterministic, being a pure
function of the input). -/
theorem C4_extract_keywords_spec (t : List Char) :
    (extractKeywords t).length ≤ 10 ∧
    (extractKeywords t).Nodup ∧
    (∀ w ∈ extractKeywords t,
      w ∈ eligibleKeywords t ∧ 3 < w.length ∧ w.all isKwCh = true ∧
      w ∉ stopWords) ∧
    (extractKeywords t).Pairwise (fun w v =>
      (eligibleKeywords t).count v < (eligibleKeywords t).count w ∨
      ((eligibleKeywords t).count w = (eligibleKeywords t).count v ∧
        firstIdx (eligibleKeywords t) w < firstIdx (eligibleKeywords t) v)) ∧
    ((distinctInOrder (eligibleKeywords t)).length ≤ 10 →
      ∀ w ∈ eligibleKeywords t, w ∈ extractKeywords t) := by
  have hmem_elig : ∀ w ∈ eligibleKeywords t,
      3 < w.length ∧ w.all isKwCh = true ∧ w ∉ stopWords := by
    intro w hw
    unfold eligibleKeywords at hw
    have h1 := List.mem_filter.mp hw
    have h2 := List.mem_filter.mp h1.1
    refine ⟨?_, ?_, ?_⟩
    · have := h1.2
      simp only [Bool.and_eq_true, decide_eq_true_eq] at this
      exact this.2
    · have := h2.2
      simp only [Bool.and_eq_true, decide_eq_true_eq] at this
      exact this.1
    · have h3 := h1.2
      simp only [Bool.and_eq_true, Bool.not_eq_true', decide_eq_true_eq] at h3
      have h4 := h3.1
      simp at h4
      exact h4
  by_cases ht : t = []
  · subst ht
    refine ⟨by simp [extractKeywords], by simp [extractKeywords], ?_, ?_, ?_⟩
    · intro w hw
      simp [extractKeywords] at hw
    · simp [extractKeywords]
    · intro _ w hw
      simp [eligibleKeywords, findKwWords, wordRuns, wordRunsAux] at hw
  · have hext : extractKeywords t = mostCommon10 (eligibleKeywords t) := by
      simp [extractKeywords, ht]
    obtain ⟨hl, hnd, hm, hpw, hcpl⟩ := mostCommon10_spec (eligibleKeywords t)
    rw [hext]
    refine ⟨hl, hnd, ?_, hpw, hcpl⟩
    intro w hw
    exact ⟨hm w hw, hmem_elig w (hm w hw)⟩

theorem C4_extract_keywords_spec_witness :
    (extractKeywords "сады дома сады".toList).length ≤ 10 ∧
    "сады".toList ∈ extractKeywords "сады дома сады".toList := by
  refine ⟨(C4_extract_keywords_spec "сады дома сады".toList).1, ?_⟩
  exact (C4_extract_keywords_spec "сады дома сады".toList).2.2.2.2
    (by decide) ("сады".toList) (by decide)

/-! ## C3 — embedding unit norm -/

theorem sumSq_nonneg (v : List ℝ) : 0 ≤ sumSq v := by
  refine List.sum_nonneg ?_
  intro x hx
  obtain ⟨y, _, rfl⟩ := List.mem_map.mp hx
  positivity

theorem sumSq_map_div (v : List ℝ) (c : ℝ) :
    sumSq (v.map (fun x => x / c)) = sumSq v / c ^ 2 := by
  unfold sumSq
  induction v with
  | nil => simp
  | cons x rest ih =>
    simp only [List.map_cons, List.map_map, List.sum_cons] at ih ⊢
    rw [ih, div_pow, div_add_div_same]

/-- Re-normalizing a vector of nonzero norm yields a unit vector. -/
theorem normL2_renormalize (v : List ℝ) (h : sumSq v ≠ 0) :
    normL2 (renormalize v) = 1 := by
  have hpos : 0 < sumSq v := lt_of_le_of_ne (sumSq_nonneg v) (Ne.symm h)
  unfold renormalize normL2
  rw [sumSq_map_div, Real.sq_sqrt (le_of_lt hpos), div_self h, Real.sqrt_one]

set_option maxRecDepth 10000 in
/-- The claim C3 as frozen is false on the code: an injected model that
returns unit vectors on every input can still produce per-chunk
embeddings whose arithmetic mean is the zero vector, and dividing the
zero mean by its zero norm does not produce a unit vector (`NaN` in
numpy, the zero vector in this real-number model).  The 1373-character
profile below splits into exactly two chunks (the first starting with
`С`, the second with `a`), to which `cxEncode` assigns `[1, 0]` and
`[-1, 0]`. -/
theorem C3_zero_mean_not_unit :
    (∀ s, normL2 (cxEncode s) = 1) ∧
    bigA1 ≠ [] ∧
    normL2 (createProfileEmbedding cxEncode bigA1 bigA2 bigA3) ≠ 1 := by
  have hunit : ∀ s, normL2 (cxEncode s) = 1 := by
    intro s
    unfold cxEncode normL2 sumSq
    by_cases h : s.headI = 'С'
    · rw [if_pos h]
      norm_num
    · rw [if_neg h]
      norm_num
  refine ⟨hunit, by decide, ?_⟩
  have hheads : (prepareProfileText bigA1 bigA2 bigA3).chunks.map List.headI
      = ['С', 'a'] := by decide
  have hmap : (prepareProfileText bigA1 bigA2 bigA3).chunks.map cxEncode
      = [[1, 0], [-1, 0]] := by
    have hcomp : (prepareProfileText bigA1 bigA2 bigA3).chunks.map cxEncode
        = ((prepareProfileText bigA1 bigA2 bigA3).chunks.map List.headI).map
          (fun h => if h = 'С' then [(1 : ℝ), 0] else [-1, 0]) := by
      rw [List.map_map]
      rfl
    have h2 : ('a' : Char) ≠ 'С' := by decide
    rw [hcomp, hheads]
    simp [h2]
  have hlen : (prepareProfileText bigA1 bigA2 bigA3).chunks.length = 2 := by
    have h := congrArg List.length hheads
    simpa using h
  have hres : createProfileEmbedding cxEncode bigA1 bigA2 bigA3
      = renormalize (vecMean [[1, 0], [-1, 0]]) := by
    unfold createProfileEmbedding
    rw [if_neg (by rw [hlen]; omega), hmap]
  have hmean : vecMean [[(1 : ℝ), 0], [-1, 0]] = [0, 0] := by
    unfold vecMean addVec
    norm_num
  have hzero : renormalize [(0 : ℝ), 0] = [0, 0] := by
    unfold renormalize
    norm_num
  rw [hres, hmean, hzero]
  unfold normL2 sumSq
  norm_num

/-- C3 (amended): assuming the injected model returns unit vectors and —
in the multi-chunk case — the per-chunk embeddings do not average to the
zero vector, `create_profile_embedding` returns a vector of L2 norm
exactly 1, and in the multi-chunk case that vector is the component-wise
arithmetic mean of the per-chunk embeddings re-normalized to unit length
(not a weighted average and not a concatenation). -/
theorem C3_embedding_unit_norm (encode : List Char → List ℝ)
    (a1 a2 a3 : List Char)
    (hunit : ∀ s, normL2 (encode s) = 1)
    (hnz : (prepareProfileText a1 a2 a3).chunks.length ≠ 1 →
      sumSq (vecMean ((prepareProfileText a1 a2 a3).chunks.map encode)) ≠ 0) :
    normL2 (createProfileEmbedding encode a1 a2 a3) = 1 ∧
    ((prepareProfileText a1 a2 a3).chunks.length ≠ 1 →
      createProfileEmbedding encode a1 a2 a3
        = renormalize (vecMean ((prepareProfileText a1 a2 a3).chunks.map
            encode))) := by
  by_cases h1 : (prepareProfileText a1 a2 a3).chunks.length = 1
  · refine ⟨?_, fun h => absurd h1 h⟩
    unfold createProfileEmbedding
    rw [if_pos h1]
    exact hunit _
  · refine ⟨?_, fun _ => ?_⟩
    · unfold createProfileEmbedding
      rw [if_neg h1]
      exact normL2_renormalize _ (hnz h1)
    · unfold createProfileEmbedding
      rw [if_neg h1]

theorem C3_embedding_unit_norm_witness :
    normL2 (createProfileEmbedding constEncode
      "дизайн".toList "партнёр".toList "опыт".toList) = 1 := by
  have hunit : ∀ s : List Char, normL2 (constEncode s) = 1 := by
    intro s
    unfold constEncode normL2 sumSq
    norm_num
  have hone : (prepareProfileText "дизайн".toList "партнёр".toList
      "опыт".toList).chunks.length = 1 := by decide
  exact (C3_embedding_unit_norm constEncode _ _ _ hunit
    (fun h => absurd hone h)).1

end BisBot
